import Mathlib

/-!
Verification development for the NvidiaManager core (`src/internals.rs`).

The core manipulates filesystem state: it installs or reverts shell-wrapper
scripts for executables, deciding install-vs-revert purely from the existence
of a backup file derived by a path-naming convention.

Embedding choices:
* A filesystem path (`FPath`) is the list of components of an absolute path.
  A component (file name) is a `String`.  Path-extension manipulation
  (`Path::extension` / `Path::with_extension` from Rust's std) is modelled on
  the final component, splitting at the last `'.'` exactly as Rust does
  (a file name whose only dot is leading has no extension; `with_extension`
  truncates to the file stem and appends a dot plus the new extension).
  The model is faithful for valid components (nonempty, not "." or "..",
  containing no '/'); `ValidName` / `ValidPath` record that domain.
* The filesystem (`FS`) is an association list from paths to nodes (regular
  file with content and POSIX mode bits, directory with mode bits, symlink
  with target).  `Path::exists` / `is_dir` / `is_file` / `fs::metadata`
  follow symlink chains (fuel-bounded); `fs::remove_file`, `fs::rename` and
  `std::os::unix::fs::symlink` operate on the final component without
  following it, as on a POSIX system.
* Fallible operations return the error together with the filesystem state at
  the moment of the error, so partial mutation before a failure is observable.
* `execute` recurses into directories; the recursion is fuel-bounded
  (discovered entries are strictly below the directory, and only paths that
  currently resolve to regular files are recursed into, so depth two always
  suffices; the wrapper `execute` supplies ample fuel).
-/

deriving instance DecidableEq for Except

namespace NvidiaManager

/-- Absolute filesystem path, as its list of components. -/
abbrev FPath := List String

/-! ## File-name extension model (Rust `Path::extension` / `with_extension`) -/

/-- Split a list of characters at its last `'.'`: returns the part before and
the part after that dot, or `none` when the list has no dot. -/
def splitLastDot : List Char → Option (List Char × List Char)
  | [] => none
  | c :: cs =>
    match splitLastDot cs with
    | some (pre, post) => some (c :: pre, post)
    | none => if c = '.' then some ([], cs) else none

/-- Rust `Path::extension` on a file name: the part after the last dot,
provided something nonempty precedes that dot. -/
def extFn (n : String) : Option String :=
  match splitLastDot n.data with
  | none => none
  | some (pre, post) => if pre = [] then none else some (String.mk post)

/-- Rust `Path::file_stem` on a file name: the part before the extension, or
the whole name when there is no extension. -/
def fileStemFn (n : String) : String :=
  match splitLastDot n.data with
  | none => n
  | some (pre, _) => if pre = [] then n else String.mk pre

/-- Rust `Path::with_extension` on a file name: truncate to the file stem and,
when the new extension is nonempty, append a dot and the new extension. -/
def withExtFn (n : String) (e : String) : String :=
  if e = "" then fileStemFn n else fileStemFn n ++ "." ++ e

/-- Valid file-name component: nonempty, not a relative marker, no separator. -/
def ValidName (n : String) : Prop :=
  n ≠ "" ∧ n ≠ "." ∧ n ≠ ".." ∧ '/' ∉ n.data

instance (n : String) : Decidable (ValidName n) := by
  unfold ValidName; infer_instance

/-- Valid absolute path: nonempty list of valid components. -/
def ValidPath (p : FPath) : Prop :=
  p ≠ [] ∧ ∀ n ∈ p, ValidName n

instance (p : FPath) : Decidable (ValidPath p) := by
  unfold ValidPath; infer_instance

/-- Apply a function to the last component of a path, leaving the rest alone;
a path with no final component (the root) is returned unchanged, matching
Rust's `set_extension` on a path with no file name. -/
def mapLast (g : String → String) (l : FPath) : FPath :=
  match l.getLast? with
  | none => []
  | some n => l.dropLast ++ [g n]

/-- Rust `Path::extension` lifted to a whole path: extension of the final
component. -/
def extOfPath (p : FPath) : Option String :=
  match p.getLast? with
  | some n => extFn n
  | none => none

/-- Rust `Path::with_extension` lifted to a whole path. -/
def withExtPath (p : FPath) (e : String) : FPath :=
  mapLast (fun n => withExtFn n e) p

/-- Display form of a path, as Rust's `Path::display` / `to_str` produce for
an absolute path built from these components. -/
def pathToStr (p : FPath) : String :=
  p.foldl (fun acc n => acc ++ "/" ++ n) ""

/-! ## Path classifier (`backup_path` / `original_path` from internals.rs) -/

/-- Backup transform of `internals.rs::backup_path` on the file name: if the
extension is already `bak` keep the name; else if there is an extension `e`
replace it by `e.bak`; else set the extension to `bak`. -/
def backupName (n : String) : String :=
  match extFn n with
  | some e => if e = "bak" then n else withExtFn n (e ++ ".bak")
  | none => withExtFn n "bak"

/-- Original transform of `internals.rs::original_path` on the file name: if
the extension is `bak` strip it (set the extension to the empty string);
otherwise keep the name. -/
def originalName (n : String) : String :=
  match extFn n with
  | some e => if e = "bak" then withExtFn n "" else n
  | none => n

/-- Embedding of `internals.rs::backup_path`. -/
def backup_path (p : FPath) : FPath :=
  mapLast backupName p

/-- Embedding of `internals.rs::original_path`. -/
def original_path (p : FPath) : FPath :=
  mapLast originalName p

/-- Character transform used by `generate_wrapper_name`: the regex
`[^a-zA-Z0-9]` replaced by `_`, one character at a time. -/
def slugChar (c : Char) : Char :=
  if ('a' ≤ c ∧ c ≤ 'z') ∨ ('A' ≤ c ∧ c ≤ 'Z') ∨ ('0' ≤ c ∧ c ≤ '9') then c
  else '_'

/-- Replace every non-alphanumeric character of a string by `_`. -/
def slugString (s : String) : String :=
  String.mk (s.data.map slugChar)

/-- Embedding of `internals.rs::generate_wrapper_name`: fixed prefix plus the
slug of the target path's string form. -/
def generate_wrapper_name (target_path : FPath) : String :=
  "wrapper_" ++ slugString (pathToStr target_path)

/-! ## Filesystem model -/

/-- Filesystem node: regular file (content, POSIX mode bits), directory
(mode bits), or symbolic link (target path). -/
inductive Node where
  | file (content : String) (mode : Nat)
  | dir (mode : Nat)
  | symlink (target : FPath)
deriving DecidableEq

/-- Filesystem state: an association list from paths to nodes.  The list
order is also the directory-walk order. -/
structure FS where
  entries : List (FPath × Node)
deriving DecidableEq

/-- Lookup in an association list of filesystem entries (first match wins). -/
def lookupEntries : List (FPath × Node) → FPath → Option Node
  | [], _ => none
  | e :: es, p => if e.1 = p then some e.2 else lookupEntries es p

/-- Node stored at a path, without following symlinks (like `lstat`). -/
def lookupFS (fs : FS) (p : FPath) : Option Node :=
  lookupEntries fs.entries p

/-- Remove every entry stored at a path (association-list deletion). -/
def eraseEntries (p : FPath) : List (FPath × Node) → List (FPath × Node)
  | [] => []
  | e :: es => if e.1 = p then eraseEntries p es else e :: eraseEntries p es

/-- Remove every entry stored at a path. -/
def eraseFS (fs : FS) (p : FPath) : FS :=
  ⟨eraseEntries p fs.entries⟩

/-- Store a node at a path, replacing anything previously there. -/
def setFS (fs : FS) (p : FPath) (n : Node) : FS :=
  ⟨(eraseFS fs p).entries ++ [(p, n)]⟩

/-- Follow a chain of symlinks (fuel-bounded), returning the final path and
its non-symlink node. -/
def resolveFS (fs : FS) : Nat → FPath → Option (FPath × Node)
  | 0, _ => none
  | fuel + 1, p =>
    match lookupFS fs p with
    | some (Node.symlink t) => resolveFS fs fuel t
    | some n => some (p, n)
    | none => none

/-- Fuel that always suffices to follow an acyclic symlink chain. -/
def fuelOf (fs : FS) : Nat := fs.entries.length + 1

/-- Resolve a path through symlinks, like `fs::metadata`. -/
def statFS (fs : FS) (p : FPath) : Option (FPath × Node) :=
  resolveFS fs (fuelOf fs) p

/-- Rust `Path::exists`: resolution through symlinks succeeds. -/
def existsFS (fs : FS) (p : FPath) : Bool :=
  (statFS fs p).isSome

/-- Rust `Path::is_dir`: the path resolves to a directory. -/
def isDirFS (fs : FS) (p : FPath) : Bool :=
  match statFS fs p with
  | some (_, Node.dir _) => true
  | _ => false

/-- Rust `Path::is_file`: the path resolves to a regular file. -/
def isFileFS (fs : FS) (p : FPath) : Bool :=
  match statFS fs p with
  | some (_, Node.file _ _) => true
  | _ => false

/-- Permission mode bits reported by `fs::metadata` (after following
symlinks), when the path resolves. -/
def modeFS (fs : FS) (p : FPath) : Option Nat :=
  match statFS fs p with
  | some (_, Node.file _ m) => some m
  | some (_, Node.dir m) => some m
  | _ => none

/-- Follow existing symlinks to the path a new file would be created at
(`open` with `O_CREAT` follows a dangling final symlink to its target). -/
def resolveCreate (fs : FS) : Nat → FPath → Option FPath
  | 0, _ => none
  | fuel + 1, p =>
    match lookupFS fs p with
    | some (Node.symlink t) => resolveCreate fs fuel t
    | _ => some p

/-- Mode bits a plainly created file receives (0o666 masked by umask 022). -/
def defaultFileMode : Nat := 0o644

/-- Model of `fs::File::create` immediately followed by `write!`: create or
truncate the regular file reached from the path and write the given content.
Fails on a directory or on a symlink loop; a fresh file gets the default
creation mode, truncation keeps the existing mode. -/
def createWriteFS (fs : FS) (p : FPath) (content : String) : Except String FS :=
  match resolveCreate fs (fuelOf fs) p with
  | none => Except.error "Too many levels of symbolic links"
  | some q =>
    match lookupFS fs q with
    | some (Node.dir _) => Except.error "Is a directory"
    | some (Node.file _ m) => Except.ok (setFS fs q (Node.file content m))
    | _ => Except.ok (setFS fs q (Node.file content defaultFileMode))

/-- Model of spawning `chmod +x` on a path: set the three execute bits of the
resolved node.  The Rust code only propagates spawn failures and ignores the
exit status, so a failed `chmod` (path missing) leaves the state unchanged
without raising an error. -/
def chmodX (fs : FS) (p : FPath) : FS :=
  match statFS fs p with
  | some (q, Node.file c m) => setFS fs q (Node.file c (m ||| 0o111))
  | some (q, Node.dir m) => setFS fs q (Node.dir (m ||| 0o111))
  | _ => fs

/-- Model of `fs::rename`: move the entry at `src` (not following symlinks)
to `dst`, replacing whatever was at `dst`; fails when `src` is absent. -/
def renameFS (fs : FS) (src dst : FPath) : Except String FS :=
  match lookupFS fs src with
  | none => Except.error "No such file or directory"
  | some n => if src = dst then Except.ok fs else Except.ok (setFS (eraseFS fs src) dst n)

/-- Model of `std::os::unix::fs::symlink original link`: create a symlink at
`linkPath` pointing to `target`; fails when anything already sits at
`linkPath`. -/
def symlinkFS (fs : FS) (target linkPath : FPath) : Except String FS :=
  match lookupFS fs linkPath with
  | some _ => Except.error "File exists"
  | none => Except.ok (setFS fs linkPath (Node.symlink target))

/-- Model of `fs::remove_file`: unlink the entry at the path itself (a
symlink is removed, not followed); fails on a missing path or a directory. -/
def removeFileFS (fs : FS) (p : FPath) : Except String FS :=
  match lookupFS fs p with
  | none => Except.error "No such file or directory"
  | some (Node.dir _) => Except.error "Is a directory"
  | some _ => Except.ok (eraseFS fs p)

/-! ## Scanner (`is_executable` / `find_executables`) -/

/-- Embedding of `internals.rs::is_executable`: `fs::metadata` succeeds and
some execute permission bit is set; a metadata error yields `false`. -/
def is_executable (fs : FS) (p : FPath) : Bool :=
  match modeFS fs p with
  | some m => m &&& 0o111 != 0
  | none => false

/-- Walk-order membership test: a stored path strictly below the root. -/
def underDir (d q : FPath) : Bool :=
  d.isPrefixOf q && !(q == d)

/-- Paths visited by `WalkDir::new d`: the root first, then every stored path
strictly below it, in storage order. -/
def walkFS (fs : FS) (d : FPath) : List FPath :=
  d :: (fs.entries.map Prod.fst).filter (underDir d)

/-- Embedding of `internals.rs::find_executables`: the walked paths that are
regular files (after following symlinks) with an execute bit set. -/
def find_executables (fs : FS) (d : FPath) : List FPath :=
  (walkFS fs d).filter (fun p => isFileFS fs p && is_executable fs p)

/-! ## Installer and revert (`create_wrapper` / `revert_changes`) -/

/-- Shell script text written by `create_wrapper` for a target path. -/
def wrapperScript (target_path : FPath) : String :=
  "#!/bin/bash\nexport __NV_PRIME_RENDER_OFFLOAD=1\nexport __GLX_VENDOR_LIBRARY_NAME=nvidia\nexport __VK_LAYER_NV_optimus=NVIDIA_only\nexec \"" ++ pathToStr target_path ++ ".bak\" \"$@\"\n"

/-- Embedding of `internals.rs::create_wrapper`: write the wrapper script,
mark it executable, rename the target to its backup path, and symlink the
target location to the wrapper.  On failure the state reached so far is
returned together with the error. -/
def create_wrapper (fs : FS) (target_path wrapper_dir : FPath) (wrapper_name : String) :
    Except String Unit × FS :=
  let wrapper_path := wrapper_dir ++ [wrapper_name]
  match createWriteFS fs wrapper_path (wrapperScript target_path) with
  | Except.error e => (Except.error e, fs)
  | Except.ok fs1 =>
    let fs2 := chmodX fs1 wrapper_path
    match renameFS fs2 target_path (backup_path target_path) with
    | Except.error e => (Except.error e, fs2)
    | Except.ok fs3 =>
      match symlinkFS fs3 wrapper_path target_path with
      | Except.error e => (Except.error e, fs3)
      | Except.ok fs4 => (Except.ok (), fs4)

/-- Embedding of `internals.rs::revert_changes`: check the backup exists,
remove the symlink at the original location, rename the backup back, and
delete the wrapper script.  On failure the state reached so far is returned
together with the error. -/
def revert_changes (fs : FS) (target wrapper_dir : FPath) (wrapper_name : String) :
    Except String Unit × FS :=
  let target_path := original_path target
  let bak := backup_path target
  if existsFS fs bak = false then
    (Except.error ("No backup found for " ++ pathToStr target_path ++ ". Cannot revert changes."), fs)
  else
    match removeFileFS fs target_path with
    | Except.error e => (Except.error e, fs)
    | Except.ok fs1 =>
      match renameFS fs1 bak target_path with
      | Except.error e => (Except.error e, fs1)
      | Except.ok fs2 =>
        match removeFileFS fs2 (wrapper_dir ++ [wrapper_name]) with
        | Except.error e => (Except.error e, fs2)
        | Except.ok fs3 => (Except.ok (), fs3)

/-! ## Toggle orchestrator (`execute`) -/

/-- Sequential loop of `execute`'s directory branch: process each discovered
path in order, skipping the directory itself and paths already in backup
form; an error aborts immediately with the state reached so far, a success
overwrites the running result. -/
def executeList (exec1 : FS → FPath → Except String Bool × FS) (dirPath : FPath) :
    List FPath → Bool → FS → Except String Bool × FS
  | [], acc, fs => (Except.ok acc, fs)
  | p :: ps, acc, fs =>
    if p = dirPath then executeList exec1 dirPath ps acc fs
    else if p = withExtPath p "bak" then executeList exec1 dirPath ps acc fs
    else
      match exec1 fs p with
      | (Except.error e, fs') => (Except.error e, fs')
      | (Except.ok b, fs') => executeList exec1 dirPath ps b fs'

/-- Single-file branch of `internals.rs::execute`: generate the wrapper name
from the original path, then revert when the backup exists, install
otherwise. -/
def toggleFile (fs : FS) (wrapper_dir target_path : FPath) : Except String Bool × FS :=
  let wrapper_name := generate_wrapper_name (original_path target_path)
  if existsFS fs (backup_path target_path) then
    match revert_changes fs target_path wrapper_dir wrapper_name with
    | (Except.error e, fs') => (Except.error e, fs')
    | (Except.ok _, fs') => (Except.ok true, fs')
  else
    match create_wrapper fs target_path wrapper_dir wrapper_name with
    | (Except.error e, fs') => (Except.error e, fs')
    | (Except.ok _, fs') => (Except.ok false, fs')

/-- Fuel-bounded embedding of `internals.rs::execute`. -/
def executeFuel : Nat → FPath → FS → FPath → Except String Bool × FS
  | 0, _, fs, _ => (Except.error "recursion limit exceeded", fs)
  | fuel + 1, wrapper_dir, fs, executable_path =>
    if existsFS fs executable_path = false then
      (Except.error ("Path " ++ pathToStr executable_path ++ " does not exist"), fs)
    else if isDirFS fs executable_path then
      executeList (executeFuel fuel wrapper_dir) executable_path
        (find_executables fs executable_path) false fs
    else
      toggleFile fs wrapper_dir executable_path

/-- Embedding of `internals.rs::execute` (the `toggle` entry point).  `true`
means an existing wrapper was reverted, `false` means a wrapper was
installed.  The fuel covers the recursion into directories: discovered
entries resolve to regular files, so the recursion depth never exceeds two. -/
def execute (fs : FS) (wrapper_dir executable_path : FPath) : Except String Bool × FS :=
  executeFuel (fs.entries.length + 2) wrapper_dir fs executable_path

/-! ## Process-path enumeration (`get_executable_paths` and filters) -/

/-- Character-level string prefix test (what Rust `str::starts_with` decides
for these ASCII prefixes). -/
def strStartsWith (s pre : String) : Bool :=
  pre.data.isPrefixOf s.data

/-- Embedding of `internals.rs::is_system_path`: the path string starts with
one of the reserved prefixes. -/
def is_system_path (p : FPath) : Bool :=
  strStartsWith (pathToStr p) "/usr" || strStartsWith (pathToStr p) "/bin" ||
    strStartsWith (pathToStr p) "/sbin"

/-- Embedding of `internals.rs::has_write_access`: the owner write bit of the
resolved metadata is set; a metadata error yields `false`. -/
def has_write_access (fs : FS) (p : FPath) : Bool :=
  match modeFS fs p with
  | some m => m &&& 0o200 != 0
  | none => false

/-- Embedding of `internals.rs::get_executable_paths`.  The process table is
external input, modelled as the list of `proc.exe()` results (`none` for a
process whose executable path could not be read); the `HashSet` result is
modelled as the list of path strings that survive the filters. -/
def get_executable_paths (fs : FS) (procs : List (Option FPath)) : List String :=
  ((procs.filterMap id).filter
      (fun exe => existsFS fs exe && has_write_access fs exe && !is_system_path exe)).map
    pathToStr

/-- Follows the spec's words for the external-interface filter "writable by
the current user" (refinement comparison only; the code itself consults no
ownership information): the write bit that POSIX applies to this user — the
owner bit when the user owns the file, the other-users bit when not. -/
def spec_writable_by_current_user (uid owner mode : Nat) : Bool :=
  if owner = uid then mode &&& 0o200 != 0 else mode &&& 0o002 != 0

/-! ## Lemmas about the extension model -/

theorem splitLastDot_eq_none (l : List Char) (h : '.' ∉ l) : splitLastDot l = none := by
  induction l with
  | nil => rfl
  | cons c cs ih =>
    have hc : c ≠ '.' := fun hc => h (hc ▸ List.mem_cons_self c cs)
    have hcs : '.' ∉ cs := fun hm => h (List.mem_cons_of_mem c hm)
    simp [splitLastDot, ih hcs, hc]

theorem splitLastDot_none_not_mem : ∀ l : List Char, splitLastDot l = none → '.' ∉ l
  | [], _ => by simp
  | c :: cs, h => by
    rw [splitLastDot] at h
    cases hcs : splitLastDot cs with
    | some pp => simp [hcs] at h
    | none =>
      simp only [hcs] at h
      by_cases hc : c = '.'
      · rw [if_pos hc] at h; cases h
      · intro hm
        rcases List.mem_cons.mp hm with hd | hd
        · exact hc hd.symm
        · exact splitLastDot_none_not_mem cs hcs hd

theorem splitLastDot_append (l r : List Char) (hr : '.' ∉ r) :
    splitLastDot (l ++ '.' :: r) = some (l, r) := by
  induction l with
  | nil => simp [splitLastDot, splitLastDot_eq_none r hr]
  | cons c cs ih => simp [splitLastDot, ih]

theorem splitLastDot_sound :
    ∀ (l pre post : List Char), splitLastDot l = some (pre, post) →
      l = pre ++ '.' :: post ∧ '.' ∉ post
  | [], pre, post, h => by cases h
  | c :: cs, pre, post, h => by
    rw [splitLastDot] at h
    cases hcs : splitLastDot cs with
    | some pp =>
      cases pp with
      | mk pr po =>
        simp only [hcs, Option.some.injEq, Prod.mk.injEq] at h
        obtain ⟨hl, hnm⟩ := splitLastDot_sound cs pr po hcs
        obtain ⟨hpre, hpost⟩ := h
        subst hpre hpost
        exact ⟨by rw [hl]; rfl, hnm⟩
    | none =>
      simp only [hcs] at h
      by_cases hc : c = '.'
      · rw [if_pos hc] at h
        simp only [Option.some.injEq, Prod.mk.injEq] at h
        obtain ⟨hpre, hpost⟩ := h
        subst hpre hpost
        exact ⟨by rw [hc]; rfl, splitLastDot_none_not_mem cs hcs⟩
      · rw [if_neg hc] at h; cases h

theorem string_data_append (a b : String) : (a ++ b).data = a.data ++ b.data := rfl

theorem string_mk_data (n : String) : String.mk n.data = n := rfl

theorem string_ne_empty_iff (n : String) : n ≠ "" ↔ n.data ≠ [] := by
  constructor
  · intro h hd
    exact h (String.ext hd)
  · intro h he
    exact h (by simp [he])

theorem extFn_append_bak (n : String) (h : n ≠ "") : extFn (n ++ ".bak") = some "bak" := by
  have hd : (n ++ ".bak").data = n.data ++ '.' :: ['b', 'a', 'k'] := rfl
  have hnd := (string_ne_empty_iff n).mp h
  simp only [extFn, hd, splitLastDot_append n.data ['b', 'a', 'k'] (by decide), if_neg hnd]

theorem fileStemFn_append_bak (n : String) (h : n ≠ "") : fileStemFn (n ++ ".bak") = n := by
  have hd : (n ++ ".bak").data = n.data ++ '.' :: ['b', 'a', 'k'] := rfl
  have hnd := (string_ne_empty_iff n).mp h
  simp only [fileStemFn, hd, splitLastDot_append n.data ['b', 'a', 'k'] (by decide), if_neg hnd]

theorem fileStemFn_of_extFn_none (n : String) (hx : extFn n = none) : fileStemFn n = n := by
  rw [extFn] at hx
  rw [fileStemFn]
  cases hs : splitLastDot n.data with
  | none => rfl
  | some pp =>
    simp only [hs] at hx
    by_cases hp : pp.1 = []
    · simp [hp]
    · simp [hp] at hx

theorem extFn_some_sound (n e : String) (hx : extFn n = some e) :
    n.data = (fileStemFn n).data ++ '.' :: e.data := by
  rw [extFn] at hx
  cases hs : splitLastDot n.data with
  | none => simp [hs] at hx
  | some pp =>
    simp only [hs] at hx
    by_cases hp : pp.1 = []
    · simp [hp] at hx
    · simp only [if_neg hp, Option.some.injEq] at hx
      have he : e.data = pp.2 := by rw [← hx]
      obtain ⟨hn, -⟩ := splitLastDot_sound n.data pp.1 pp.2 hs
      have hstem : fileStemFn n = String.mk pp.1 := by
        simp only [fileStemFn, hs, if_neg hp]
      rw [hstem]
      show n.data = pp.1 ++ '.' :: e.data
      rw [he]
      exact hn

theorem backupName_of_ext_ne_bak (n : String) (h : extFn n ≠ some "bak") :
    backupName n = n ++ ".bak" := by
  cases hx : extFn n with
  | none =>
    have hstem := fileStemFn_of_extFn_none n hx
    simp only [backupName, hx, withExtFn, if_neg (by decide : ¬("bak" : String) = ""), hstem]
    apply String.ext
    simp [string_data_append]
  | some e =>
    have he : e ≠ "bak" := fun hb => h (by rw [hx, hb])
    have hne : e ++ ".bak" ≠ "" := by
      rw [string_ne_empty_iff, string_data_append]
      simp
    simp only [backupName, hx, if_neg he, withExtFn, if_neg hne]
    apply String.ext
    have hdec := extFn_some_sound n e hx
    simp only [string_data_append, hdec]
    simp

theorem backupName_of_ext_bak (n : String) (h : extFn n = some "bak") :
    backupName n = n := by
  simp [backupName, h]

theorem originalName_append_bak (n : String) (h : n ≠ "") :
    originalName (n ++ ".bak") = n := by
  simp [originalName, extFn_append_bak n h, withExtFn, fileStemFn_append_bak n h]

theorem originalName_of_ext_ne_bak (n : String) (h : extFn n ≠ some "bak") :
    originalName n = n := by
  cases hx : extFn n with
  | none => simp only [originalName, hx]
  | some e =>
    have he : e ≠ "bak" := fun hb => h (by rw [hx, hb])
    simp only [originalName, hx, if_neg he]

theorem originalName_of_ext_bak (n : String) (h : extFn n = some "bak") :
    originalName n = fileStemFn n := by
  simp [originalName, h, withExtFn]

theorem originalName_data_length_of_ext_bak (n : String) (h : extFn n = some "bak") :
    (originalName n).data.length + 4 = n.data.length := by
  rw [originalName_of_ext_bak n h]
  have hdec := extFn_some_sound n "bak" h
  rw [hdec]
  simp

theorem withExtFn_bak_eq_self_iff (n : String) :
    withExtFn n "bak" = n ↔ extFn n = some "bak" := by
  constructor
  · intro h
    cases hx : extFn n with
    | none =>
      exfalso
      have hstem := fileStemFn_of_extFn_none n hx
      have hlen := congrArg (fun s => s.data.length) h
      simp only [withExtFn, if_neg (by decide : ¬("bak" : String) = ""), hstem,
        string_data_append] at hlen
      simp at hlen
    | some e =>
      have hdec := extFn_some_sound n e hx
      have hda := congrArg String.data h
      simp only [withExtFn, if_neg (by decide : ¬("bak" : String) = ""),
        string_data_append, hdec] at hda
      rw [List.append_assoc] at hda
      have hcan := List.append_cancel_left hda
      have he : e.data = ['b', 'a', 'k'] := by
        have := hcan.symm
        simpa using this
      have he2 : e = "bak" := String.ext he
      rw [he2]
  · intro hx
    have hdec := extFn_some_sound n "bak" hx
    apply String.ext
    simp only [withExtFn, if_neg (by decide : ¬("bak" : String) = ""),
      string_data_append, hdec]
    simp

/-! ## Lemmas about paths and the classifier -/

theorem mapLast_of_getLast? (g : String → String) (l : FPath) (n : String)
    (h : l.getLast? = some n) : mapLast g l = l.dropLast ++ [g n] := by
  simp [mapLast, h]

theorem getLast?_mapLast (g : String → String) (l : FPath) (n : String)
    (h : l.getLast? = some n) : (mapLast g l).getLast? = some (g n) := by
  rw [mapLast_of_getLast? g l n h, List.getLast?_concat]

theorem dropLast_concat_of_getLast? (l : FPath) (n : String)
    (h : l.getLast? = some n) : l.dropLast ++ [n] = l := by
  have hne : l ≠ [] := by
    intro hl
    rw [hl] at h
    cases h
  have hg := List.getLast?_eq_getLast l hne
  rw [h] at hg
  have := List.dropLast_append_getLast hne
  rw [← Option.some.inj hg] at this
  exact this

theorem mapLast_eq_self (g : String → String) (l : FPath) (n : String)
    (h : l.getLast? = some n) (hg : g n = n) : mapLast g l = l := by
  rw [mapLast_of_getLast? g l n h, hg, dropLast_concat_of_getLast? l n h]

theorem mapLast_mapLast (g h : String → String) (l : FPath) (n : String)
    (hn : l.getLast? = some n) :
    mapLast g (mapLast h l) = l.dropLast ++ [g (h n)] := by
  rw [mapLast_of_getLast? h l n hn,
    mapLast_of_getLast? g (l.dropLast ++ [h n]) (h n) (List.getLast?_concat _),
    List.dropLast_concat]

theorem getLast?_of_valid (p : FPath) (hv : ValidPath p) :
    ∃ n, p.getLast? = some n ∧ ValidName n := by
  have hne := hv.1
  refine ⟨p.getLast hne, List.getLast?_eq_getLast p hne, ?_⟩
  exact hv.2 _ (List.getLast_mem hne)

theorem extOfPath_of_getLast? (p : FPath) (n : String) (h : p.getLast? = some n) :
    extOfPath p = extFn n := by
  simp [extOfPath, h]

theorem original_path_of_ext_ne_bak (p : FPath) (h : extOfPath p ≠ some "bak") :
    original_path p = p := by
  cases hg : p.getLast? with
  | none =>
    cases p with
    | nil => rfl
    | cons a l => simp at hg
  | some n =>
    have hx : extFn n ≠ some "bak" := by
      rw [← extOfPath_of_getLast? p n hg]
      exact h
    exact mapLast_eq_self _ p n hg (originalName_of_ext_ne_bak n hx)

theorem backup_path_of_ext_bak (p : FPath) (h : extOfPath p = some "bak") :
    backup_path p = p := by
  cases hg : p.getLast? with
  | none => rw [extOfPath, hg] at h; cases h
  | some n =>
    have hx : extFn n = some "bak" := by
      rw [← extOfPath_of_getLast? p n hg]
      exact h
    exact mapLast_eq_self _ p n hg (backupName_of_ext_bak n hx)

theorem backup_path_of_ext_ne_bak (p : FPath) (n : String)
    (hg : p.getLast? = some n) (h : extFn n ≠ some "bak") :
    backup_path p = p.dropLast ++ [n ++ ".bak"] := by
  rw [backup_path, mapLast_of_getLast? _ p n hg, backupName_of_ext_ne_bak n h]

theorem backup_path_ne_self (p : FPath) (n : String)
    (hg : p.getLast? = some n) (h : extFn n ≠ some "bak") :
    backup_path p ≠ p := by
  intro heq
  have h1 : (backup_path p).getLast? = some (n ++ ".bak") := by
    rw [backup_path_of_ext_ne_bak p n hg h, List.getLast?_concat]
  rw [heq, hg] at h1
  have h2 := Option.some.inj h1
  have h3 := congrArg (fun s => s.data.length) h2
  simp [string_data_append] at h3

theorem original_path_of_getLast? (p : FPath) (n : String)
    (hg : p.getLast? = some n) :
    original_path p = p.dropLast ++ [originalName n] := by
  rw [original_path, mapLast_of_getLast? _ p n hg]

theorem original_path_ne_self_of_ext_bak (p : FPath) (n : String)
    (hg : p.getLast? = some n) (h : extFn n = some "bak") :
    original_path p ≠ p := by
  intro heq
  have h1 : (original_path p).getLast? = some (originalName n) := by
    rw [original_path_of_getLast? p n hg, List.getLast?_concat]
  rw [heq, hg] at h1
  have h2 := Option.some.inj h1
  have h3 := congrArg (fun s => s.data.length) h2
  have h4 := originalName_data_length_of_ext_bak n h
  simp only at h3
  omega

/-! ## Length of wrapper names: a wrapper name is strictly longer than the
final component of the path it was generated from, so a wrapper path can
never alias the target, its backup, or its original. -/

theorem slugString_data_length (s : String) :
    (slugString s).data.length = s.data.length := by
  simp [slugString]

theorem pathToStr_foldl_length (l : FPath) :
    ∀ acc : String,
      ((l.foldl (fun a n => a ++ "/" ++ n) acc)).data.length =
        acc.data.length + (l.map (fun n => n.data.length + 1)).sum := by
  induction l with
  | nil => intro acc; simp
  | cons n rest ih =>
    intro acc
    rw [List.foldl_cons, ih]
    simp [string_data_append]
    omega

theorem mem_of_getLast? (l : FPath) (n : String) (h : l.getLast? = some n) : n ∈ l := by
  have hne : l ≠ [] := by
    intro hl
    rw [hl] at h
    cases h
  have hg := List.getLast?_eq_getLast l hne
  rw [h] at hg
  rw [Option.some.inj hg]
  exact List.getLast_mem hne

theorem component_length_lt_pathToStr (p : FPath) (n : String) (h : n ∈ p) :
    n.data.length + 1 ≤ (pathToStr p).data.length := by
  rw [pathToStr, pathToStr_foldl_length]
  have hm : n.data.length + 1 ∈ p.map (fun x => x.data.length + 1) :=
    List.mem_map_of_mem _ h
  have hle := List.single_le_sum (l := p.map (fun x => x.data.length + 1))
    (fun x _ => Nat.zero_le x) _ hm
  have h0 : ("" : String).data.length = 0 := rfl
  omega

theorem wrapper_name_data_length (p : FPath) (n : String) (h : n ∈ p) :
    n.data.length + 9 ≤ (generate_wrapper_name p).data.length := by
  rw [generate_wrapper_name, string_data_append, List.length_append,
    slugString_data_length]
  have := component_length_lt_pathToStr p n h
  have h8 : ("wrapper_" : String).data.length = 8 := by decide
  omega

theorem ne_wrapper_path_self (q wd : FPath) :
    q ≠ wd ++ [generate_wrapper_name q] := by
  intro heq
  have hg : q.getLast? = some (generate_wrapper_name q) :=
    (congrArg List.getLast? heq).trans (List.getLast?_concat _)
  have hmem : generate_wrapper_name q ∈ q := mem_of_getLast? q _ hg
  have := wrapper_name_data_length q _ hmem
  omega

theorem backup_path_ne_wrapper_path (p wd : FPath) (n : String)
    (hg : p.getLast? = some n) (h : extFn n ≠ some "bak") :
    backup_path p ≠ wd ++ [generate_wrapper_name p] := by
  intro heq
  have h1 : (backup_path p).getLast? = some (n ++ ".bak") := by
    rw [backup_path_of_ext_ne_bak p n hg h, List.getLast?_concat]
  rw [heq, List.getLast?_concat] at h1
  have h2 := Option.some.inj h1
  have hmem : n ∈ p := mem_of_getLast? p n hg
  have hlen := wrapper_name_data_length p n hmem
  have h3 := congrArg (fun s => s.data.length) h2
  simp only [string_data_append, List.length_append] at h3
  have h4 : ((".bak" : String).data).length = 4 := rfl
  have h5 : (['.', 'b', 'a', 'k'] : List Char).length = 4 := rfl
  omega

/-! ## Lemmas about the filesystem model -/

theorem lookupEntries_erase_self (p : FPath) :
    ∀ l : List (FPath × Node), lookupEntries (eraseEntries p l) p = none
  | [] => rfl
  | e :: es => by
    by_cases h : e.1 = p
    · simp [eraseEntries, h, lookupEntries_erase_self p es]
    · simp [eraseEntries, h, lookupEntries, lookupEntries_erase_self p es]

theorem lookupEntries_erase_ne (p q : FPath) (hq : q ≠ p) :
    ∀ l : List (FPath × Node),
      lookupEntries (eraseEntries p l) q = lookupEntries l q
  | [] => rfl
  | e :: es => by
    by_cases h : e.1 = p
    · have hne : e.1 ≠ q := by rw [h]; exact fun hh => hq hh.symm
      simp [eraseEntries, h, lookupEntries, hne, Ne.symm hq,
        lookupEntries_erase_ne p q hq es]
    · by_cases h2 : e.1 = q
      · simp [eraseEntries, h, lookupEntries, h2, hq]
      · simp [eraseEntries, h, lookupEntries, h2, lookupEntries_erase_ne p q hq es]

theorem lookupEntries_append (q : FPath) :
    ∀ l1 l2 : List (FPath × Node),
      lookupEntries (l1 ++ l2) q =
        (match lookupEntries l1 q with
         | some v => some v
         | none => lookupEntries l2 q)
  | [], l2 => rfl
  | e :: es, l2 => by
    by_cases h : e.1 = q
    · simp [lookupEntries, h]
    · simp [lookupEntries, h, lookupEntries_append q es l2]

theorem lookup_erase_self (fs : FS) (p : FPath) : lookupFS (eraseFS fs p) p = none :=
  lookupEntries_erase_self p fs.entries

theorem lookup_erase_ne (fs : FS) (p q : FPath) (h : q ≠ p) :
    lookupFS (eraseFS fs p) q = lookupFS fs q :=
  lookupEntries_erase_ne p q h fs.entries

theorem lookup_set_self (fs : FS) (p : FPath) (n : Node) :
    lookupFS (setFS fs p n) p = some n := by
  rw [lookupFS, setFS, lookupEntries_append]
  show (match lookupEntries (eraseEntries p fs.entries) p with
    | some v => some v
    | none => lookupEntries [(p, n)] p) = some n
  rw [lookupEntries_erase_self p]
  simp [lookupEntries]

theorem lookup_set_ne (fs : FS) (p q : FPath) (n : Node) (h : q ≠ p) :
    lookupFS (setFS fs p n) q = lookupFS fs q := by
  rw [lookupFS, setFS, lookupEntries_append]
  show (match lookupEntries (eraseEntries p fs.entries) q with
    | some v => some v
    | none => lookupEntries [(p, n)] q) = lookupFS fs q
  rw [lookupEntries_erase_ne p q h]
  cases hl : lookupEntries fs.entries q with
  | some v => simp [lookupFS, hl]
  | none => simp [lookupFS, lookupEntries, hl, Ne.symm h]

theorem lookup_entries_ne_nil (fs : FS) (p : FPath) (nd : Node)
    (h : lookupFS fs p = some nd) : fs.entries ≠ [] := by
  intro hfs
  rw [lookupFS, hfs] at h
  cases h

theorem statFS_of_file (fs : FS) (p : FPath) (c : String) (m : Nat)
    (h : lookupFS fs p = some (Node.file c m)) : statFS fs p = some (p, Node.file c m) := by
  simp [statFS, fuelOf, resolveFS, h]

theorem statFS_of_dir (fs : FS) (p : FPath) (m : Nat)
    (h : lookupFS fs p = some (Node.dir m)) : statFS fs p = some (p, Node.dir m) := by
  simp [statFS, fuelOf, resolveFS, h]

theorem statFS_of_none (fs : FS) (p : FPath)
    (h : lookupFS fs p = none) : statFS fs p = none := by
  simp [statFS, fuelOf, resolveFS, h]

theorem statFS_of_link_file (fs : FS) (p t : FPath) (c : String) (m : Nat)
    (h1 : lookupFS fs p = some (Node.symlink t))
    (h2 : lookupFS fs t = some (Node.file c m)) :
    statFS fs p = some (t, Node.file c m) := by
  rcases hfs : fs.entries with - | ⟨e, es⟩
  · exact absurd hfs (lookup_entries_ne_nil fs t _ h2)
  · rw [statFS, fuelOf, hfs]
    show resolveFS fs (es.length + 1 + 1) p = _
    simp [resolveFS, h1, h2]

theorem existsFS_of_file (fs : FS) (p : FPath) (c : String) (m : Nat)
    (h : lookupFS fs p = some (Node.file c m)) : existsFS fs p = true := by
  simp [existsFS, statFS_of_file fs p c m h]

theorem existsFS_of_dir (fs : FS) (p : FPath) (m : Nat)
    (h : lookupFS fs p = some (Node.dir m)) : existsFS fs p = true := by
  simp [existsFS, statFS_of_dir fs p m h]

theorem existsFS_of_none (fs : FS) (p : FPath)
    (h : lookupFS fs p = none) : existsFS fs p = false := by
  simp [existsFS, statFS_of_none fs p h]

theorem existsFS_of_link_file (fs : FS) (p t : FPath) (c : String) (m : Nat)
    (h1 : lookupFS fs p = some (Node.symlink t))
    (h2 : lookupFS fs t = some (Node.file c m)) : existsFS fs p = true := by
  simp [existsFS, statFS_of_link_file fs p t c m h1 h2]

theorem isDirFS_of_file (fs : FS) (p : FPath) (c : String) (m : Nat)
    (h : lookupFS fs p = some (Node.file c m)) : isDirFS fs p = false := by
  simp [isDirFS, statFS_of_file fs p c m h]

theorem isDirFS_of_dir (fs : FS) (p : FPath) (m : Nat)
    (h : lookupFS fs p = some (Node.dir m)) : isDirFS fs p = true := by
  simp [isDirFS, statFS_of_dir fs p m h]

theorem isDirFS_of_link_file (fs : FS) (p t : FPath) (c : String) (m : Nat)
    (h1 : lookupFS fs p = some (Node.symlink t))
    (h2 : lookupFS fs t = some (Node.file c m)) : isDirFS fs p = false := by
  simp [isDirFS, statFS_of_link_file fs p t c m h1 h2]

theorem isFileFS_of_file (fs : FS) (p : FPath) (c : String) (m : Nat)
    (h : lookupFS fs p = some (Node.file c m)) : isFileFS fs p = true := by
  simp [isFileFS, statFS_of_file fs p c m h]

theorem isFileFS_of_link_file (fs : FS) (p t : FPath) (c : String) (m : Nat)
    (h1 : lookupFS fs p = some (Node.symlink t))
    (h2 : lookupFS fs t = some (Node.file c m)) : isFileFS fs p = true := by
  simp [isFileFS, statFS_of_link_file fs p t c m h1 h2]

/-! ## Unfolding lemmas for the orchestrator -/

theorem execute_eq_fuel (fs : FS) (wd p : FPath) :
    execute fs wd p = executeFuel (fs.entries.length + 2) wd fs p := rfl

theorem executeFuel_not_exists (fuel : Nat) (wd : FPath) (fs : FS) (p : FPath)
    (hex : existsFS fs p = false) :
    executeFuel (fuel + 1) wd fs p =
      (Except.error ("Path " ++ pathToStr p ++ " does not exist"), fs) := by
  simp [executeFuel, hex]

theorem executeFuel_dir (fuel : Nat) (wd : FPath) (fs : FS) (p : FPath)
    (hex : existsFS fs p = true) (hd : isDirFS fs p = true) :
    executeFuel (fuel + 1) wd fs p =
      executeList (executeFuel fuel wd) p (find_executables fs p) false fs := by
  simp [executeFuel, hex, hd]

theorem executeFuel_file (fuel : Nat) (wd : FPath) (fs : FS) (p : FPath)
    (hex : existsFS fs p = true) (hnd : isDirFS fs p = false) :
    executeFuel (fuel + 1) wd fs p = toggleFile fs wd p := by
  simp [executeFuel, hex, hnd]

theorem execute_not_exists (fs : FS) (wd p : FPath) (hex : existsFS fs p = false) :
    execute fs wd p = (Except.error ("Path " ++ pathToStr p ++ " does not exist"), fs) := by
  rw [execute_eq_fuel]
  exact executeFuel_not_exists (fs.entries.length + 1) wd fs p hex

theorem execute_file (fs : FS) (wd p : FPath)
    (hex : existsFS fs p = true) (hnd : isDirFS fs p = false) :
    execute fs wd p = toggleFile fs wd p := by
  rw [execute_eq_fuel]
  exact executeFuel_file (fs.entries.length + 1) wd fs p hex hnd

theorem execute_dir (fs : FS) (wd p : FPath)
    (hex : existsFS fs p = true) (hd : isDirFS fs p = true) :
    execute fs wd p =
      executeList (executeFuel (fs.entries.length + 1) wd) p
        (find_executables fs p) false fs := by
  rw [execute_eq_fuel]
  exact executeFuel_dir (fs.entries.length + 1) wd fs p hex hd

/-! ## Concrete filesystem states used by witnesses and counterexamples -/

/-- Wrapper directory `/w` plus one plain executable `/home/app`. -/
def fsPlain : FS :=
  FS.mk [(["w"], Node.dir 0o755), (["home", "app"], Node.file "X" 0o755)]

/-- Directory `/root` holding files of modes 644, 755, 600 and 711. -/
def fsModes : FS :=
  FS.mk [(["root"], Node.dir 0o755),
    (["root", "a644"], Node.file "a" 0o644),
    (["root", "b755"], Node.file "b" 0o755),
    (["root", "c600"], Node.file "c" 0o600),
    (["root", "d711"], Node.file "d" 0o711)]

/-- Directory `/d` holding a symlink `/d/s` to the executable file `/x`. -/
def fsLink : FS :=
  FS.mk [(["d"], Node.dir 0o755), (["d", "s"], Node.symlink ["x"]),
    (["x"], Node.file "X" 0o755)]

/-- Wrapper directory `/w` plus a plain executable named `/app.bak` that was
never produced by an install. -/
def fsBak : FS :=
  FS.mk [(["w"], Node.dir 0o755), (["app.bak"], Node.file "X" 0o755)]

/-- Wrapper directory `/w` plus `/home/app` and an unrelated `/home/app.bak`. -/
def fsPair : FS :=
  FS.mk [(["w"], Node.dir 0o755), (["home", "app"], Node.file "ORIG" 0o755),
    (["home", "app.bak"], Node.file "B" 0o644)]

/-- A single root-owned-style executable `/opt/app` with mode 755. -/
def fsOpt : FS :=
  FS.mk [(["opt", "app"], Node.file "X" 0o755)]

/-! ## Claim C4 -/

/-- C4: `backup_path` computes exactly the spec's naming convention: with no
extension the file name becomes `name.bak`; with an extension `ext` other
than `bak` it becomes `name.ext.bak` (the stem, the old extension, then the
marker); with extension `bak` the path is returned unchanged. -/
theorem c4_backup_naming (p : FPath) (hv : ValidPath p) :
    (extOfPath p = none → backup_path p = mapLast (fun n => n ++ ".bak") p) ∧
    (∀ e, extOfPath p = some e → e ≠ "bak" →
      backup_path p = mapLast (fun n => fileStemFn n ++ "." ++ e ++ ".bak") p) ∧
    (extOfPath p = some "bak" → backup_path p = p) := by
  obtain ⟨n, hg, hvn⟩ := getLast?_of_valid p hv
  have hex : extOfPath p = extFn n := extOfPath_of_getLast? p n hg
  refine ⟨?_, ?_, ?_⟩
  · intro hx
    rw [hex] at hx
    rw [backup_path, mapLast_of_getLast? _ p n hg, mapLast_of_getLast? _ p n hg,
      backupName_of_ext_ne_bak n (by rw [hx]; intro h; cases h)]
  · intro e hx he
    rw [hex] at hx
    rw [backup_path, mapLast_of_getLast? _ p n hg, mapLast_of_getLast? _ p n hg]
    have hb : backupName n = withExtFn n (e ++ ".bak") := by
      simp [backupName, hx, he]
    have hne : e ++ ".bak" ≠ "" := by
      rw [string_ne_empty_iff, string_data_append]
      simp
    rw [hb, withExtFn, if_neg hne]
    have : fileStemFn n ++ "." ++ (e ++ ".bak") = fileStemFn n ++ "." ++ e ++ ".bak" := by
      apply String.ext
      simp [string_data_append, List.append_assoc]
    rw [this]
  · intro hx
    exact backup_path_of_ext_bak p hx

/-- Witness for C4 at the concrete path /opt/app.sh. -/
theorem c4_witness :
    (extOfPath ["opt", "app.sh"] = none →
      backup_path ["opt", "app.sh"] = mapLast (fun n => n ++ ".bak") ["opt", "app.sh"]) ∧
    (∀ e, extOfPath ["opt", "app.sh"] = some e → e ≠ "bak" →
      backup_path ["opt", "app.sh"] =
        mapLast (fun n => fileStemFn n ++ "." ++ e ++ ".bak") ["opt", "app.sh"]) ∧
    (extOfPath ["opt", "app.sh"] = some "bak" → backup_path ["opt", "app.sh"] = ["opt", "app.sh"]) :=
  c4_backup_naming ["opt", "app.sh"] (by decide)

/-! ## Claim C3 -/

/-- C3 counterexample: at the valid path `/a.bak.bak` the claimed law
`backup_path (original_path p) = backup_path p` fails: the left side is
`/a.bak` while the right side is `/a.bak.bak`. -/
theorem c3_counterexample :
    ValidPath ["a.bak.bak"] ∧
    backup_path (original_path ["a.bak.bak"]) ≠ backup_path ["a.bak.bak"] := by
  decide

/-- C3 amended: the classifiers are pure total functions; for every valid
path whose extension is not `bak` the round trip
`original_path (backup_path p) = p` holds; for every valid path
`original_path (backup_path p) = original_path p` holds unconditionally; and
`backup_path (original_path p) = backup_path p` holds for every valid path
except those carrying two stacked `bak` extensions (the law fails at names
like `a.bak.bak`, so that conjunct alone carries the exception). -/
theorem c3_classifier_laws (p : FPath) (hv : ValidPath p) :
    (extOfPath p ≠ some "bak" → original_path (backup_path p) = p) ∧
    original_path (backup_path p) = original_path p ∧
    (¬(extOfPath p = some "bak" ∧ extOfPath (original_path p) = some "bak") →
      backup_path (original_path p) = backup_path p) := by
  obtain ⟨n, hg, hvn⟩ := getLast?_of_valid p hv
  have hex : extOfPath p = extFn n := extOfPath_of_getLast? p n hg
  by_cases hx : extFn n = some "bak"
  · have hxp : extOfPath p = some "bak" := by rw [hex, hx]
    have hb : backup_path p = p := backup_path_of_ext_bak p hxp
    refine ⟨fun hc => absurd hxp hc, by rw [hb], fun hdd => ?_⟩
    rw [hb]
    have horig : original_path p = p.dropLast ++ [originalName n] :=
      original_path_of_getLast? p n hg
    have hstem : originalName n = fileStemFn n := originalName_of_ext_bak n hx
    have hgo : (original_path p).getLast? = some (originalName n) := by
      rw [horig, List.getLast?_concat]
    have hxo : extFn (originalName n) ≠ some "bak" := by
      intro hcon
      exact hdd ⟨hxp, by rw [extOfPath_of_getLast? _ _ hgo]; exact hcon⟩
    rw [backup_path, mapLast_of_getLast? _ _ _ hgo, backupName_of_ext_ne_bak _ hxo,
      horig, List.dropLast_concat]
    have hn : originalName n ++ ".bak" = n := by
      apply String.ext
      rw [string_data_append, hstem]
      have hdec := extFn_some_sound n "bak" hx
      rw [hdec]
    rw [hn, dropLast_concat_of_getLast? p n hg]
  · have hxp : extOfPath p ≠ some "bak" := by rw [hex]; exact hx
    have horig : original_path p = p := original_path_of_ext_ne_bak p hxp
    have hbp : backup_path p = p.dropLast ++ [n ++ ".bak"] :=
      backup_path_of_ext_ne_bak p n hg hx
    have hrt : original_path (backup_path p) = p := by
      rw [original_path, hbp, mapLast_of_getLast? _ _ _ (List.getLast?_concat _),
        List.dropLast_concat, originalName_append_bak n hvn.1,
        dropLast_concat_of_getLast? p n hg]
    exact ⟨fun _ => hrt, by rw [hrt, horig], fun _ => by rw [horig]⟩

/-- Witness for C3 at the concrete path /opt/app.sh. -/
theorem c3_witness :
    (extOfPath ["opt", "app.sh"] ≠ some "bak" →
      original_path (backup_path ["opt", "app.sh"]) = ["opt", "app.sh"]) ∧
    original_path (backup_path ["opt", "app.sh"]) = original_path ["opt", "app.sh"] ∧
    (¬(extOfPath ["opt", "app.sh"] = some "bak" ∧
        extOfPath (original_path ["opt", "app.sh"]) = some "bak") →
      backup_path (original_path ["opt", "app.sh"]) = backup_path ["opt", "app.sh"]) :=
  c3_classifier_laws ["opt", "app.sh"] (by decide)

/-! ## Claim C5 -/

/-- C5 counterexample: the slug transform maps the two distinct paths
`/opt/app/bin` and `/opt/app-bin` to the same wrapper name, because `/` and
`-` are both replaced by `_`; the claimed distinctness is false. -/
theorem c5_counterexample :
    generate_wrapper_name ["opt", "app", "bin"] =
      generate_wrapper_name ["opt", "app-bin"] := by
  decide

/-- C5 amended: `wrapper_name` maps both `/opt/app/bin` and `/opt/app-bin` to
the identical slug `wrapper__opt_app_bin`; the transform collides on these
inputs. -/
theorem c5_wrapper_name_collision :
    generate_wrapper_name ["opt", "app", "bin"] = "wrapper__opt_app_bin" ∧
    generate_wrapper_name ["opt", "app-bin"] = "wrapper__opt_app_bin" := by
  decide

/-! ## Claim C7 -/

/-- C7: reverting a target whose backup path does not exist fails with the
no-backup-found error and returns the filesystem completely unchanged. -/
theorem c7_revert_without_backup (fs : FS) (t wd : FPath) (wn : String)
    (h : existsFS fs (backup_path t) = false) :
    revert_changes fs t wd wn =
      (Except.error ("No backup found for " ++ pathToStr (original_path t) ++
        ". Cannot revert changes."), fs) := by
  simp [revert_changes, h]

/-- Witness for C7: reverting /a on an empty filesystem fails without
touching the state. -/
theorem c7_witness :
    revert_changes (FS.mk []) ["a"] ["w"] "wn" =
      (Except.error ("No backup found for " ++ pathToStr (original_path ["a"]) ++
        ". Cannot revert changes."), FS.mk []) :=
  c7_revert_without_backup (FS.mk []) ["a"] ["w"] "wn" (by decide)

/-! ## Claim C2 -/

/-- C2: the single-file contract of `execute`: a missing target fails with
the path-not-found error; an existing non-directory target with an existing
backup path delegates to `revert_changes` and reports `true` on success
(propagating any failure); with no backup path it delegates to
`create_wrapper` and reports `false` on success (propagating any failure). -/
theorem c2_execute_contract (fs : FS) (wd f : FPath) :
    (existsFS fs f = false →
      execute fs wd f = (Except.error ("Path " ++ pathToStr f ++ " does not exist"), fs)) ∧
    (existsFS fs f = true → isDirFS fs f = false →
      (existsFS fs (backup_path f) = true →
        execute fs wd f =
          (match revert_changes fs f wd (generate_wrapper_name (original_path f)) with
           | (Except.error e, fs') => (Except.error e, fs')
           | (Except.ok _, fs') => (Except.ok true, fs'))) ∧
      (existsFS fs (backup_path f) = false →
        execute fs wd f =
          (match create_wrapper fs f wd (generate_wrapper_name (original_path f)) with
           | (Except.error e, fs') => (Except.error e, fs')
           | (Except.ok _, fs') => (Except.ok false, fs')))) := by
  refine ⟨fun hex => execute_not_exists fs wd f hex,
    fun hex hnd => ⟨fun hb => ?_, fun hb => ?_⟩⟩
  · rw [execute_file fs wd f hex hnd]
    simp [toggleFile, hb]
  · rw [execute_file fs wd f hex hnd]
    simp [toggleFile, hb]

/-- Witness for C2: on a state holding only the wrapper directory /w and the
plain executable /home/app, the no-backup branch applies. -/
theorem c2_witness :
    execute fsPlain ["w"] ["home", "app"] =
      (match create_wrapper fsPlain ["home", "app"] ["w"]
          (generate_wrapper_name (original_path ["home", "app"])) with
       | (Except.error e, fs') => (Except.error e, fs')
       | (Except.ok _, fs') => (Except.ok false, fs')) :=
  ((c2_execute_contract fsPlain ["w"] ["home", "app"]).2 (by decide) (by decide)).2 (by decide)

/-! ## Claim C6 -/

/-- C6 counterexample: `find_executables` does not exclude symlinks: the
symlink `/d/s` to the executable regular file `/x` is returned by the scan of
`/d`, because `Path::is_file` follows symlinks. -/
theorem c6_counterexample :
    ["d", "s"] ∈ find_executables fsLink ["d"] ∧
    lookupFS fsLink ["d", "s"] = some (Node.symlink ["x"]) := by
  decide

/-- C6 amended: the scanner returns exactly the walked paths (the root and
every stored path strictly below it) that resolve through symlinks to a
regular file with at least one execute permission bit set — so a symlink to
an executable regular file is included, while directories, dangling symlinks
and unreadable entries are skipped; among regular files of modes 644, 755,
600, 711 exactly the 755 and 711 ones are returned. -/
theorem c6_scanner_characterization :
    (∀ (fs : FS) (d p : FPath),
      p ∈ find_executables fs d ↔
        ((p = d ∨ (p ∈ fs.entries.map Prod.fst ∧ d <+: p ∧ p ≠ d)) ∧
          ∃ q c m, statFS fs p = some (q, Node.file c m) ∧ m &&& 0o111 ≠ 0)) ∧
    find_executables fsModes ["root"] = [["root", "b755"], ["root", "d711"]] := by
  constructor
  · intro fs d p
    rw [find_executables, List.mem_filter, walkFS]
    constructor
    · rintro ⟨hmem, hpred⟩
      rw [Bool.and_eq_true] at hpred
      obtain ⟨hfile, hexec⟩ := hpred
      constructor
      · rcases List.mem_cons.mp hmem with hd | hu
        · exact Or.inl hd
        · obtain ⟨hin, hund⟩ := List.mem_filter.mp hu
          rw [underDir, Bool.and_eq_true] at hund
          refine Or.inr ⟨hin, ?_, ?_⟩
          · exact List.isPrefixOf_iff_prefix.mp hund.1
          · intro hpd
            rw [Bool.not_eq_true'] at hund
            exact absurd (beq_iff_eq.mpr hpd) (by rw [hund.2]; simp)
      · rw [isFileFS] at hfile
        rw [is_executable, modeFS] at hexec
        cases hst : statFS fs p with
        | none => rw [hst] at hfile; cases hfile
        | some qn =>
          rcases qn with ⟨q, nd⟩
          cases nd with
          | file c m =>
            refine ⟨q, c, m, rfl, ?_⟩
            rw [hst] at hexec
            simpa using hexec
          | dir mm => rw [hst] at hfile; cases hfile
          | symlink t => rw [hst] at hfile; cases hfile
    · rintro ⟨hwhere, q, c, m, hst, hbit⟩
      constructor
      · rcases hwhere with hd | ⟨hin, hpre, hne⟩
        · exact List.mem_cons.mpr (Or.inl hd)
        · refine List.mem_cons.mpr (Or.inr (List.mem_filter.mpr ⟨hin, ?_⟩))
          rw [underDir, Bool.and_eq_true]
          refine ⟨List.isPrefixOf_iff_prefix.mpr hpre, ?_⟩
          rw [Bool.not_eq_true']
          exact beq_false_of_ne hne
      · rw [Bool.and_eq_true]
        constructor
        · rw [isFileFS, hst]
        · rw [is_executable, modeFS, hst]
          simpa using hbit
  · decide

theorem withExtPath_bak_self (p : FPath) (h : extOfPath p = some "bak") :
    p = withExtPath p "bak" := by
  cases hg : p.getLast? with
  | none => rw [extOfPath, hg] at h; cases h
  | some n =>
    have hx : extFn n = some "bak" := by
      rw [← extOfPath_of_getLast? p n hg]
      exact h
    exact (mapLast_eq_self _ p n hg ((withExtFn_bak_eq_self_iff n).mpr hx)).symm

/-! ## Claim C8 -/

/-- C8: for a directory target, `execute` runs the sequential loop over the
scanner's findings: the whole call equals the fold `executeList`; a directory
with zero matching executables is a no-op success reporting `false`; an entry
in backup form is skipped; a failing entry aborts the loop immediately,
returning that error together with the state reached so far (earlier entries
stay toggled, later entries are untouched, nothing is rolled back); and when
the last entry succeeds its result is the aggregate result. -/
theorem c8_directory_batch (fs : FS) (wd dp : FPath)
    (hex : existsFS fs dp = true) (hd : isDirFS fs dp = true) :
    (execute fs wd dp =
      executeList (executeFuel (fs.entries.length + 1) wd) dp
        (find_executables fs dp) false fs) ∧
    (find_executables fs dp = [] → execute fs wd dp = (Except.ok false, fs)) ∧
    (∀ (ex : FS → FPath → Except String Bool × FS) (fs1 : FS) (p : FPath)
        (ps : List FPath) (acc : Bool),
      extOfPath p = some "bak" →
      executeList ex dp (p :: ps) acc fs1 = executeList ex dp ps acc fs1) ∧
    (∀ (ex : FS → FPath → Except String Bool × FS) (fs1 fs2 : FS) (p : FPath)
        (ps : List FPath) (acc : Bool) (e : String),
      p ≠ dp → p ≠ withExtPath p "bak" → ex fs1 p = (Except.error e, fs2) →
      executeList ex dp (p :: ps) acc fs1 = (Except.error e, fs2)) ∧
    (∀ (ex : FS → FPath → Except String Bool × FS) (fs1 fs2 : FS) (p : FPath)
        (acc b : Bool),
      p ≠ dp → p ≠ withExtPath p "bak" → ex fs1 p = (Except.ok b, fs2) →
      executeList ex dp [p] acc fs1 = (Except.ok b, fs2)) := by
  refine ⟨execute_dir fs wd dp hex hd, ?_, ?_, ?_, ?_⟩
  · intro hnone
    rw [execute_dir fs wd dp hex hd, hnone, executeList]
  · intro ex fs1 p ps acc hb
    have hskip : p = withExtPath p "bak" := withExtPath_bak_self p hb
    by_cases hpd : p = dp
    · simp only [executeList]
      rw [if_pos hpd]
    · simp only [executeList]
      rw [if_neg hpd, if_pos hskip]
  · intro ex fs1 fs2 p ps acc e hpd hskip hfail
    simp only [executeList]
    rw [if_neg hpd, if_neg hskip, hfail]
  · intro ex fs1 fs2 p acc b hpd hskip hok
    simp only [executeList]
    rw [if_neg hpd, if_neg hskip, hok]

/-- Witness for C8: toggling the empty directory /d succeeds reporting
`false` and leaves the state unchanged. -/
theorem c8_witness :
    execute (FS.mk [(["d"], Node.dir 0o755)]) ["w"] ["d"] =
      (Except.ok false, FS.mk [(["d"], Node.dir 0o755)]) :=
  (c8_directory_batch (FS.mk [(["d"], Node.dir 0o755)]) ["w"] ["d"]
    (by decide) (by decide)).2.1 (by decide)

/-! ## Claim C9 -/

/-- C9 counterexample: the returned set is not restricted to paths writable
by the current user: `/opt/app` (mode 755) is returned because its owner
write bit is set, yet for a non-owning current user (uid 1000, file owned by
uid 0) POSIX write permission — the spec's "writable by the current user" —
is absent. -/
theorem c9_counterexample :
    "/opt/app" ∈ get_executable_paths fsOpt [some ["opt", "app"]] ∧
    modeFS fsOpt ["opt", "app"] = some 0o755 ∧
    spec_writable_by_current_user 1000 0 0o755 = false := by
  decide

/-- C9 amended: every path string returned by `get_executable_paths` names a
path that exists, whose resolved mode has the owner write permission bit set
(the code's approximation of writability — ownership is never consulted),
and whose string form does not start with `/usr`, `/bin` or `/sbin` (hence
lies under none of them). -/
theorem c9_process_paths_filtered (fs : FS) (procs : List (Option FPath)) (s : String)
    (h : s ∈ get_executable_paths fs procs) :
    ∃ p : FPath, s = pathToStr p ∧ existsFS fs p = true ∧
      has_write_access fs p = true ∧ is_system_path p = false := by
  rw [get_executable_paths] at h
  obtain ⟨p, hp, hs⟩ := List.mem_map.mp h
  obtain ⟨hmem, hfilt⟩ := List.mem_filter.mp hp
  simp only [Bool.and_eq_true, Bool.not_eq_true'] at hfilt
  exact ⟨p, hs.symm, hfilt.1.1, hfilt.1.2, hfilt.2⟩

/-- Witness for C9: the single returned path /opt/app satisfies the amended
filter conditions. -/
theorem c9_witness :
    ∃ p : FPath, "/opt/app" = pathToStr p ∧ existsFS fsOpt p = true ∧
      has_write_access fsOpt p = true ∧ is_system_path p = false :=
  c9_process_paths_filtered fsOpt [some ["opt", "app"]] "/opt/app" (by decide)

/-! ## Claim C10 -/

/-- C10: for an existing regular file `p` whose extension is `bak`, `execute`
can never take the install branch: `backup_path p` is `p` itself, which
exists, so the call always delegates to `revert_changes` (reporting `true` on
success); and whenever the stripped original path holds a non-directory
entry, the revert removes that entry and renames `p` onto the stripped path —
afterwards the stripped path holds `p`'s old file node and nothing remains at
`p`, whatever the wrapper-script removal outcome — even when `p` is an
ordinary file never produced by an install. -/
theorem c10_bak_file_always_reverts (fs : FS) (wd p : FPath) (c : String) (m : Nat)
    (nd : Node) (hv : ValidPath p) (hext : extOfPath p = some "bak")
    (hp : lookupFS fs p = some (Node.file c m))
    (hx : lookupFS fs (original_path p) = some nd)
    (hnd : ∀ dm, nd ≠ Node.dir dm) :
    backup_path p = p ∧
    execute fs wd p =
      (match revert_changes fs p wd (generate_wrapper_name (original_path p)) with
       | (Except.error e, fs') => (Except.error e, fs')
       | (Except.ok _, fs') => (Except.ok true, fs')) ∧
    ∃ (r : Except String Bool) (fs' : FS),
      execute fs wd p = (r, fs') ∧
      lookupFS fs' (original_path p) = some (Node.file c m) ∧
      lookupFS fs' p = none := by
  obtain ⟨n, hg, hvn⟩ := getLast?_of_valid p hv
  have hxn : extFn n = some "bak" := by
    rw [← extOfPath_of_getLast? p n hg]
    exact hext
  have hb : backup_path p = p := backup_path_of_ext_bak p hext
  set x := original_path p with hxdef
  have hxg : x.getLast? = some (originalName n) := by
    rw [hxdef, original_path_of_getLast? p n hg, List.getLast?_concat]
  have hxp : x ≠ p := original_path_ne_self_of_ext_bak p n hg hxn
  set wn := generate_wrapper_name x with hwndef
  set wp := wd ++ [wn] with hwpdef
  have hwpx : wp ≠ x := Ne.symm (ne_wrapper_path_self x wd)
  have hwpp : wp ≠ p := by
    intro he
    have h1 : p.getLast? = some wn := by
      rw [← he, hwpdef, List.getLast?_concat]
    rw [hg] at h1
    have h2 := Option.some.inj h1
    have hmem : originalName n ∈ x := mem_of_getLast? x _ hxg
    have hlen := wrapper_name_data_length x _ hmem
    have hlen2 := originalName_data_length_of_ext_bak n hxn
    have h3 : n.data.length = wn.data.length := by rw [h2]
    rw [hwndef] at h3
    omega
  have hex1 : existsFS fs p = true := existsFS_of_file fs p c m hp
  have hnd1 : isDirFS fs p = false := isDirFS_of_file fs p c m hp
  have hdeleg : execute fs wd p =
      (match revert_changes fs p wd wn with
       | (Except.error e, fs') => (Except.error e, fs')
       | (Except.ok _, fs') => (Except.ok true, fs')) := by
    rw [execute_file fs wd p hex1 hnd1]
    simp only [toggleFile, ← hxdef, ← hwndef, hb, hex1, if_true]
  refine ⟨hb, hdeleg, ?_⟩
  have hbex : existsFS fs (backup_path p) = true := by
    rw [hb]
    exact hex1
  have hrm1 : removeFileFS fs x = Except.ok (eraseFS fs x) := by
    cases nd with
    | file c2 m2 => simp [removeFileFS, hx]
    | dir dm => exact absurd rfl (hnd dm)
    | symlink t => simp [removeFileFS, hx]
  set fs1 := eraseFS fs x with hfs1
  have h1p : lookupFS fs1 p = some (Node.file c m) := by
    rw [hfs1, lookup_erase_ne fs x p (Ne.symm hxp)]
    exact hp
  have hrn : renameFS fs1 p x = Except.ok (setFS (eraseFS fs1 p) x (Node.file c m)) := by
    simp [renameFS, h1p, Ne.symm hxp]
  set fs2 := setFS (eraseFS fs1 p) x (Node.file c m) with hfs2
  have h2x : lookupFS fs2 x = some (Node.file c m) := by
    rw [hfs2, lookup_set_self]
  have h2p : lookupFS fs2 p = none := by
    rw [hfs2, lookup_set_ne (eraseFS fs1 p) x p (Node.file c m) (Ne.symm hxp),
      lookup_erase_self]
  have hrevBase : revert_changes fs p wd wn =
      (match removeFileFS fs2 wp with
       | Except.error e => (Except.error e, fs2)
       | Except.ok fs3 => (Except.ok (), fs3)) := by
    rw [revert_changes]
    simp only [← hxdef, ← hwpdef, hb, hrm1, ← hfs1, hrn, ← hfs2]
    simp [hex1]
  cases hwl : lookupFS fs2 wp with
  | none =>
    have hrm3 : removeFileFS fs2 wp = Except.error "No such file or directory" := by
      simp [removeFileFS, hwl]
    exact ⟨Except.error "No such file or directory", fs2,
      by rw [hdeleg, hrevBase, hrm3], h2x, h2p⟩
  | some nd2 =>
    cases nd2 with
    | dir dm =>
      have hrm3 : removeFileFS fs2 wp = Except.error "Is a directory" := by
        simp [removeFileFS, hwl]
      exact ⟨Except.error "Is a directory", fs2,
        by rw [hdeleg, hrevBase, hrm3], h2x, h2p⟩
    | file c3 m3 =>
      have hrm3 : removeFileFS fs2 wp = Except.ok (eraseFS fs2 wp) := by
        simp [removeFileFS, hwl]
      refine ⟨Except.ok true, eraseFS fs2 wp, by rw [hdeleg, hrevBase, hrm3], ?_, ?_⟩
      · rw [lookup_erase_ne fs2 wp x (Ne.symm hwpx)]
        exact h2x
      · rw [lookup_erase_ne fs2 wp p (Ne.symm hwpp)]
        exact h2p
    | symlink t =>
      have hrm3 : removeFileFS fs2 wp = Except.ok (eraseFS fs2 wp) := by
        simp [removeFileFS, hwl]
      refine ⟨Except.ok true, eraseFS fs2 wp, by rw [hdeleg, hrevBase, hrm3], ?_, ?_⟩
      · rw [lookup_erase_ne fs2 wp x (Ne.symm hwpx)]
        exact h2x
      · rw [lookup_erase_ne fs2 wp p (Ne.symm hwpp)]
        exact h2p

/-- Witness for C10: toggling the plain file /home/app.bak deletes the
unrelated /home/app and renames the bak file onto it. -/
theorem c10_witness :
    ∃ (r : Except String Bool) (fs' : FS),
      execute fsPair ["w"] ["home", "app.bak"] = (r, fs') ∧
      lookupFS fs' (original_path ["home", "app.bak"]) = some (Node.file "B" 0o644) ∧
      lookupFS fs' ["home", "app.bak"] = none :=
  (c10_bak_file_always_reverts fsPair ["w"] ["home", "app.bak"] "B" 0o644
    (Node.file "ORIG" 0o755) (by decide) (by decide) (by decide) (by decide)
    (fun dm h => Node.noConfusion h)).2.2

/-! ## Claim C1 -/

/-- C1 counterexample: for the regular executable file `/app.bak` and the
wrapper directory `/w`, toggling twice does not restore the claimed final
state: both calls fail (the first takes the revert branch because the file is
its own backup path, and reverting tries to remove the nonexistent stripped
path), and afterwards a backup file for the target — the target itself —
still exists, contradicting "no backup file for f exists". -/
theorem c1_counterexample :
    lookupFS fsBak ["app.bak"] = some (Node.file "X" 0o755) ∧
    execute fsBak ["w"] ["app.bak"] = (Except.error "No such file or directory", fsBak) ∧
    execute (execute fsBak ["w"] ["app.bak"]).2 ["w"] ["app.bak"] =
      (Except.error "No such file or directory", fsBak) ∧
    existsFS (execute (execute fsBak ["w"] ["app.bak"]).2 ["w"] ["app.bak"]).2
      (backup_path ["app.bak"]) = true := by
  decide

/-- C1 amended: for every regular executable file `f` that is not itself in
backup form (extension not `bak`), whose backup path does not yet exist, and
for every wrapper directory `d` whose slot for `f`'s wrapper script is free,
calling toggle twice restores `f` to its original content and permission
bits, and afterwards no backup file for `f` exists and no wrapper script for
`f` remains in `d` (the first call installs reporting `false`, the second
reverts reporting `true`). -/
theorem c1_toggle_round_trip (fs : FS) (wd f : FPath) (c : String) (m : Nat)
    (hv : ValidPath f) (_hwd : ∃ dm, lookupFS fs wd = some (Node.dir dm))
    (hf : lookupFS fs f = some (Node.file c m)) (_hxbit : m &&& 0o111 ≠ 0)
    (hext : extOfPath f ≠ some "bak")
    (hbak : existsFS fs (backup_path f) = false)
    (hwp : lookupFS fs (wd ++ [generate_wrapper_name f]) = none) :
    ∃ fs1 fs2 : FS,
      execute fs wd f = (Except.ok false, fs1) ∧
      execute fs1 wd f = (Except.ok true, fs2) ∧
      lookupFS fs2 f = some (Node.file c m) ∧
      lookupFS fs2 (backup_path f) = none ∧
      lookupFS fs2 (wd ++ [generate_wrapper_name f]) = none := by
  obtain ⟨n, hg, hvn⟩ := getLast?_of_valid f hv
  have hxn : extFn n ≠ some "bak" := by
    rw [← extOfPath_of_getLast? f n hg]
    exact hext
  have horig : original_path f = f := original_path_of_ext_ne_bak f hext
  set wn := generate_wrapper_name f with hwn
  set wp := wd ++ [wn] with hwpdef
  set bp := backup_path f with hbp
  have hfwp : f ≠ wp := by
    intro he
    rw [he, hwp] at hf
    cases hf
  have hbpf : bp ≠ f := backup_path_ne_self f n hg hxn
  have hbpwp : bp ≠ wp := backup_path_ne_wrapper_path f wd n hg hxn
  have hex1 : existsFS fs f = true := existsFS_of_file fs f c m hf
  have hnd1 : isDirFS fs f = false := isDirFS_of_file fs f c m hf
  have hresolve : resolveCreate fs (fuelOf fs) wp = some wp := by
    simp [resolveCreate, fuelOf, hwp]
  have hcw : createWriteFS fs wp (wrapperScript f) =
      Except.ok (setFS fs wp (Node.file (wrapperScript f) defaultFileMode)) := by
    simp [createWriteFS, hresolve, hwp]
  set fsA := setFS fs wp (Node.file (wrapperScript f) defaultFileMode) with hfsA
  have hmode : defaultFileMode ||| 0o111 = 0o755 := by decide
  have hchmod : chmodX fsA wp = setFS fsA wp (Node.file (wrapperScript f) 0o755) := by
    have hl : lookupFS fsA wp = some (Node.file (wrapperScript f) defaultFileMode) := by
      rw [hfsA, lookup_set_self]
    have hst := statFS_of_file fsA wp _ _ hl
    simp [chmodX, hst, hmode]
  set fsB := setFS fsA wp (Node.file (wrapperScript f) 0o755) with hfsB
  have hlB_f : lookupFS fsB f = some (Node.file c m) := by
    rw [hfsB, lookup_set_ne fsA wp f _ hfwp, hfsA, lookup_set_ne fs wp f _ hfwp]
    exact hf
  have hrename : renameFS fsB f bp = Except.ok (setFS (eraseFS fsB f) bp (Node.file c m)) := by
    simp [renameFS, hlB_f, Ne.symm hbpf]
  set fsC := setFS (eraseFS fsB f) bp (Node.file c m) with hfsC
  have hlC_f : lookupFS fsC f = none := by
    rw [hfsC, lookup_set_ne (eraseFS fsB f) bp f _ (Ne.symm hbpf), lookup_erase_self]
  have hsym : symlinkFS fsC wp f = Except.ok (setFS fsC f (Node.symlink wp)) := by
    simp [symlinkFS, hlC_f]
  set fsD := setFS fsC f (Node.symlink wp) with hfsD
  have hcwr : create_wrapper fs f wd wn = (Except.ok (), fsD) := by
    rw [create_wrapper]
    simp only [← hwpdef, hcw, hchmod, ← hfsA, ← hbp, ← hfsB, hrename, ← hfsC, hsym, ← hfsD]
  have hT1 : execute fs wd f = (Except.ok false, fsD) := by
    rw [execute_file fs wd f hex1 hnd1]
    simp only [toggleFile, horig, ← hwn, ← hbp, hbak, Bool.false_eq_true, if_false, hcwr]
  have hD_f : lookupFS fsD f = some (Node.symlink wp) := by
    rw [hfsD, lookup_set_self]
  have hD_bp : lookupFS fsD bp = some (Node.file c m) := by
    rw [hfsD, lookup_set_ne fsC f bp _ hbpf, hfsC, lookup_set_self]
  have hD_wp : lookupFS fsD wp = some (Node.file (wrapperScript f) 0o755) := by
    rw [hfsD, lookup_set_ne fsC f wp _ (Ne.symm hfwp), hfsC,
      lookup_set_ne (eraseFS fsB f) bp wp _ (Ne.symm hbpwp),
      lookup_erase_ne fsB f wp (Ne.symm hfwp), hfsB, lookup_set_self]
  have hex2 : existsFS fsD f = true := existsFS_of_link_file fsD f wp _ _ hD_f hD_wp
  have hnd2 : isDirFS fsD f = false := isDirFS_of_link_file fsD f wp _ _ hD_f hD_wp
  have hbak2 : existsFS fsD bp = true := existsFS_of_file fsD bp c m hD_bp
  have hrm1 : removeFileFS fsD f = Except.ok (eraseFS fsD f) := by
    simp [removeFileFS, hD_f]
  set fsE := eraseFS fsD f with hfsE
  have hE_bp : lookupFS fsE bp = some (Node.file c m) := by
    rw [hfsE, lookup_erase_ne fsD f bp hbpf]
    exact hD_bp
  have hrn2 : renameFS fsE bp f = Except.ok (setFS (eraseFS fsE bp) f (Node.file c m)) := by
    simp [renameFS, hE_bp, hbpf]
  set fsF := setFS (eraseFS fsE bp) f (Node.file c m) with hfsF
  have hF_wp : lookupFS fsF wp = some (Node.file (wrapperScript f) 0o755) := by
    rw [hfsF, lookup_set_ne (eraseFS fsE bp) f wp _ (Ne.symm hfwp),
      lookup_erase_ne fsE bp wp (Ne.symm hbpwp), hfsE,
      lookup_erase_ne fsD f wp (Ne.symm hfwp)]
    exact hD_wp
  have hrm3 : removeFileFS fsF wp = Except.ok (eraseFS fsF wp) := by
    simp [removeFileFS, hF_wp]
  set fsG := eraseFS fsF wp with hfsG
  have hrev : revert_changes fsD f wd wn = (Except.ok (), fsG) := by
    rw [revert_changes]
    simp only [horig, ← hbp, ← hwpdef, hrm1, ← hfsE, hrn2, ← hfsF, hrm3, ← hfsG]
    simp [hbak2]
  have hT2 : execute fsD wd f = (Except.ok true, fsG) := by
    rw [execute_file fsD wd f hex2 hnd2]
    simp only [toggleFile, horig, ← hwn, ← hbp, hbak2, if_true, hrev]
  refine ⟨fsD, fsG, hT1, hT2, ?_, ?_, ?_⟩
  · rw [hfsG, lookup_erase_ne fsF wp f hfwp, hfsF, lookup_set_self]
  · rw [hfsG, lookup_erase_ne fsF wp bp hbpwp, hfsF,
      lookup_set_ne (eraseFS fsE bp) f bp _ hbpf, lookup_erase_self]
  · rw [hfsG, lookup_erase_self]

/-- Witness for C1: the round trip on the concrete executable /home/app with
wrapper directory /w. -/
theorem c1_witness :
    ∃ fs1 fs2 : FS,
      execute fsPlain ["w"] ["home", "app"] = (Except.ok false, fs1) ∧
      execute fs1 ["w"] ["home", "app"] = (Except.ok true, fs2) ∧
      lookupFS fs2 ["home", "app"] = some (Node.file "X" 0o755) ∧
      lookupFS fs2 (backup_path ["home", "app"]) = none ∧
      lookupFS fs2 (["w"] ++ [generate_wrapper_name ["home", "app"]]) = none :=
  c1_toggle_round_trip fsPlain ["w"] ["home", "app"] "X" 0o755 (by decide)
    ⟨0o755, by decide⟩ (by decide) (by decide) (by decide) (by decide) (by decide)

end NvidiaManager
